import Mathlib

/-!
# Verification of the life-calendar statistics engine

Shallow embedding of the pure statistics functions of the repository
(`src/utils/habitStats.ts` and `src/utils/analytics.ts`) together with
proofs of the specified properties.

## Date model

The TypeScript code represents calendar dates as ISO `YYYY-MM-DD` strings and
manipulates them exclusively through the date-utility module (`./dates`:
`parseDate`, `formatDate`, `addDays`, `getToday`), which is not part of the
analysed sources.  Modelled from the spec: "Date Utilities (external
collaborator; assumed correct): calendar-correct date arithmetic (add days,
format, parse, today)".  Valid ISO date strings under the lexicographic
comparison used by the code (`localeCompare`, `<`, `>`, `===`) are
order-isomorphic to integers counting days; we therefore model a date as an
integer day number, `addDays d k` as `d + k`, string comparison as integer
comparison, and the millisecond difference `parseDate(b) - parseDate(a)`
divided by 86,400,000 as `b - a`.  The calendar projector additionally needs
the year/month/day structure of a date; for it we use an explicit
year-month-day record (see `Ymd` below).
-/

/-- JavaScript `Math.round x`: the nearest integer, halves rounding towards
positive infinity, i.e. `⌊x + 1/2⌋`. -/
def jsRound (x : ℚ) : ℤ := ⌊x + 1/2⌋

/-- Integer-exact evaluation of `Math.round (a / b)` for `b > 0`:
`⌊a/b + 1/2⌋ = ⌊(2a+b)/(2b)⌋`, computed with integer (floor) division.
Used so that concrete instances reduce inside the kernel. -/
def roundDiv (a b : ℤ) : ℤ := (2 * a + b) / (2 * b)

/-- Embedding of `Math.round ((completed / total) * 100)`. -/
def percentOf (completed total : ℤ) : ℤ := roundDiv (completed * 100) total

theorem roundDiv_eq_jsRound (a b : ℤ) (hb : 0 < b) :
    roundDiv a b = jsRound ((a : ℚ) / (b : ℚ)) := by
  have hb0 : (b : ℚ) ≠ 0 := by exact_mod_cast hb.ne'
  have harg : (a : ℚ) / (b : ℚ) + 1/2 = ((2 * a + b : ℤ) : ℚ) / (((2 * b).toNat : ℕ) : ℚ) := by
    have h2b : (((2 * b).toNat : ℕ) : ℚ) = ((2 * b : ℤ) : ℚ) := by
      have : ((2 * b).toNat : ℤ) = 2 * b := Int.toNat_of_nonneg (by omega)
      exact_mod_cast congrArg (fun z : ℤ => (z : ℚ)) this
    rw [h2b]
    push_cast
    field_simp
    ring
  have hfloor := Rat.floor_intCast_div_natCast (2 * a + b) (2 * b).toNat
  have htn : (((2 * b).toNat : ℕ) : ℤ) = 2 * b := Int.toNat_of_nonneg (by omega)
  unfold jsRound roundDiv
  rw [harg, hfloor, htn]

theorem percentOf_eq_jsRound (c t : ℤ) (ht : 0 < t) :
    percentOf c t = jsRound ((c : ℚ) / (t : ℚ) * 100) := by
  have h : ((c * 100 : ℤ) : ℚ) / (t : ℚ) = (c : ℚ) / (t : ℚ) * 100 := by
    push_cast
    ring
  rw [percentOf, roundDiv_eq_jsRound _ _ ht, h]

/-!
## `habitStats.ts` — streaks, period stats

Dates are integer day numbers (see the date model above).  The JavaScript
`sort` calls with `localeCompare` comparators are modelled with Mathlib's
`insertionSort` (a stable comparison sort, like the source's `Array.sort`).
-/

instance : IsTotal ℤ (fun a b : ℤ => a ≤ b) := ⟨fun a b => le_total a b⟩

instance : IsTrans ℤ (fun a b : ℤ => a ≤ b) := ⟨fun _ _ _ h h2 => le_trans h h2⟩

instance : IsTotal ℤ (fun a b : ℤ => b ≤ a) := ⟨fun a b => le_total b a⟩

instance : IsTrans ℤ (fun a b : ℤ => b ≤ a) := ⟨fun _ _ _ h h2 => le_trans h2 h⟩

/-- The body of the `for` loop of `calculateCurrentStreak`: runs over the
descending-sorted completion dates with the expected date and the streak
accumulated so far; an exact match extends the streak and moves the expected
date one day back, a date strictly before the expected date breaks the loop,
and later duplicates (dates after the expected date) are skipped. -/
def streakLoop (expected : ℤ) (streak : ℕ) : List ℤ → ℕ
  | [] => streak
  | d :: rest =>
    if d = expected then streakLoop (expected - 1) (streak + 1) rest
    else if d < expected then streak
    else streakLoop expected streak rest

/-- `calculateCurrentStreak` of `habitStats.ts`: sort the completion dates
descending; if the most recent one is neither `today` nor `today - 1` the
streak is 0, otherwise walk the sorted list with `streakLoop` starting from
that anchor. -/
def calculateCurrentStreak (completionDates : List ℤ) (today : ℤ) : ℕ :=
  match completionDates.insertionSort (fun a b => b ≤ a) with
  | [] => 0
  | m :: rest =>
    let yesterday := today - 1
    if m ≠ today ∧ m ≠ yesterday then 0
    else streakLoop (if m = today then today else yesterday) 0 (m :: rest)

/-- The body of the `for` loop of `calculateLongestStreak`: runs over the
ascending-sorted completion dates keeping the previous date, the current run
length and the longest run seen; a successor date extends the run, a
duplicate leaves it untouched, anything else resets it to 1. -/
def longestLoop (prev : ℤ) (current longest : ℕ) : List ℤ → ℕ
  | [] => longest
  | d :: rest =>
    if d = prev + 1 then longestLoop d (current + 1) (max longest (current + 1)) rest
    else if d = prev then longestLoop d current longest rest
    else longestLoop d 1 longest rest

/-- `calculateLongestStreak` of `habitStats.ts`: 0 for an empty list,
otherwise scan the ascending-sorted dates with `longestLoop`, starting with a
run of length 1 at the first date. -/
def calculateLongestStreak (completionDates : List ℤ) : ℕ :=
  match completionDates.insertionSort (fun a b => a ≤ b) with
  | [] => 0
  | d :: rest => longestLoop d 1 1 rest

/-- `PeriodStats` of `habitStats.ts`. -/
structure PeriodStats where
  completed : ℤ
  total : ℤ
  percentage : ℤ
  deriving DecidableEq, Repr

/-- `countDays` of `habitStats.ts`: the millisecond difference of the parsed
dates, divided by a day and floored, plus one — in day numbers simply
`endDate - startDate + 1`. -/
def countDays (startDate endDate : ℤ) : ℤ := (endDate - startDate) + 1

/-- `calculatePeriodStats` of `habitStats.ts`. -/
def calculatePeriodStats (completionDates : List ℤ) (periodStart periodEnd : ℤ) :
    PeriodStats :=
  let total := countDays periodStart periodEnd
  let completionsInPeriod :=
    completionDates.filter (fun date => periodStart ≤ date ∧ date ≤ periodEnd)
  let completed : ℤ := completionsInPeriod.length
  let percentage := if 0 < total then percentOf completed total else 0
  { completed := completed, total := total, percentage := percentage }

example : calculateCurrentStreak [10, 9] 10 = 2 := by decide
example : calculateCurrentStreak [10] 12 = 0 := by decide
example : calculateLongestStreak [1, 2, 3, 5] = 3 := by decide
example : calculateLongestStreak [1, 1, 2] = 2 := by decide
example : (calculatePeriodStats [] 5 2).total = -2 := by decide
example : (calculatePeriodStats [1, 2, 7] 1 4).percentage = 50 := by decide

/-!
## `analytics.ts` — daily data, completion rates, correlations, reflections

A per-day record (`DailyData` in `src/types`) carries a finite map from habit
id to boolean completion and an optional free-text reflection.  The habit
sub-map is modelled as a function to `Option Bool` (`none` = the record lacks
an entry for that habit, mirroring the `!== undefined` checks); the outer
`Record<string, DailyData>` is modelled as an association list so that it is
finite, which the termination argument of `getCurrentStreak` needs.
Free text is modelled as a list of characters (JS strings are sequences of
UTF-16 units; `trim`, `length`, `slice` operate on that sequence).
-/

/-- Habit identifiers (`HabitId` in `src/types`). -/
abbrev HabitId := String

/-- The fields of `DailyData` used by the analytics module. -/
structure DayRecord where
  habits : HabitId → Option Bool
  reflection : Option (List Char)

/-- The fields of `HabitDefinition` used by the analytics module. -/
structure HabitDefinition where
  id : HabitId
  label : String
  deriving DecidableEq, Repr

/-- A daily-data map `Record<string, DailyData>`, keyed by date. -/
abbrev DailyDataMap := List (ℤ × DayRecord)

/-- The object indexing `dailyData[date]`. -/
def lookupDay (dailyData : DailyDataMap) (date : ℤ) : Option DayRecord :=
  dailyData.lookup date

/-- `getDateRange` of `analytics.ts`: `[fromDate, fromDate-1, ...]`,
`days` entries. -/
def getDateRange (days : ℕ) (fromDate : ℤ) : List ℤ :=
  (List.range days).map (fun i => fromDate - i)

/-- The accumulation step of the loop of `getCompletionRate`: a day with a
record that explicitly contains a value for the habit increments `total`, and
additionally `completed` when the value is `true`. -/
def rateStep (dailyData : DailyDataMap) (habitId : HabitId) (ct : ℕ × ℕ) (date : ℤ) :
    ℕ × ℕ :=
  match lookupDay dailyData date with
  | some day =>
    match day.habits habitId with
    | some b => (if b then ct.1 + 1 else ct.1, ct.2 + 1)
    | none => ct
  | none => ct

/-- `getCompletionRate` of `analytics.ts`. -/
def getCompletionRate (dailyData : DailyDataMap) (habitId : HabitId) (dates : List ℤ) :
    ℤ :=
  let ct := dates.foldl (rateStep dailyData habitId) (0, 0)
  if 0 < ct.2 then percentOf ct.1 ct.2 else 0

/-- Modelled from the spec: a day of the window is "observed" for a habit
exactly when "the per-day record explicitly contains a value, true or false,
for that habit id". -/
def observedOn (dailyData : DailyDataMap) (habitId : HabitId) (date : ℤ) : Bool :=
  match lookupDay dailyData date with
  | some day => (day.habits habitId).isSome
  | none => false

/-- A day of the window on which the habit was completed. -/
def completedOn (dailyData : DailyDataMap) (habitId : HabitId) (date : ℤ) : Bool :=
  match lookupDay dailyData date with
  | some day => day.habits habitId = some true
  | none => false

/-- Modelled from the spec: "completed-count / observed-count over the
window", 0 when no day is observed. -/
def completionRateSpec (dailyData : DailyDataMap) (habitId : HabitId)
    (dates : List ℤ) : ℤ :=
  let total := dates.countP (observedOn dailyData habitId)
  let completed := dates.countP (completedOn dailyData habitId)
  if 0 < total then percentOf completed total else 0

/-- `HabitCorrelation` of `analytics.ts`. -/
structure HabitCorrelation where
  habitA : String
  habitB : String
  correlation : ℤ
  deriving DecidableEq, Repr

instance : IsTotal HabitCorrelation (fun x y => y.correlation ≤ x.correlation) :=
  ⟨fun a b => le_total b.correlation a.correlation⟩

instance : IsTrans HabitCorrelation (fun x y => y.correlation ≤ x.correlation) :=
  ⟨fun _ _ _ h h2 => le_trans h2 h⟩

/-- The unordered pairs `(habits[i], habits[j])`, `i < j`, in the iteration
order of the two nested `for` loops of `computeCorrelations`. -/
def habitPairs : List HabitDefinition → List (HabitDefinition × HabitDefinition)
  | [] => []
  | h :: t => t.map (fun x => (h, x)) ++ habitPairs t

/-- Number of window days on which at least one of the two habits was
completed (`eitherDone` of `computeCorrelations`); a missing day record or a
missing habit entry counts as not completed (the `!day` guard and falsy
lookup). -/
def eitherDoneCount (dailyData : DailyDataMap) (a b : HabitId) (dates : List ℤ) : ℕ :=
  dates.countP (fun d => completedOn dailyData a d || completedOn dailyData b d)

/-- Number of window days on which both habits were completed (`bothDone`). -/
def bothDoneCount (dailyData : DailyDataMap) (a b : HabitId) (dates : List ℤ) : ℕ :=
  dates.countP (fun d => completedOn dailyData a d && completedOn dailyData b d)

/-- The candidate correlation entry that the pair loop body of
`computeCorrelations` pushes: present only when `eitherDone > 0` and the
rounded ratio is at least 50. -/
def pairEntry (dailyData : DailyDataMap) (dates : List ℤ)
    (p : HabitDefinition × HabitDefinition) : Option HabitCorrelation :=
  let eitherDone := eitherDoneCount dailyData p.1.id p.2.id dates
  let bothDone := bothDoneCount dailyData p.1.id p.2.id dates
  if 0 < eitherDone then
    let correlation := percentOf bothDone eitherDone
    if 50 ≤ correlation then
      some { habitA := p.1.label, habitB := p.2.label, correlation := correlation }
    else none
  else none

/-- `computeCorrelations` of `analytics.ts`: collect the qualifying pair
entries, sort them descending by correlation and keep the first five. -/
def computeCorrelations (dailyData : DailyDataMap) (habits : List HabitDefinition)
    (days : ℕ) (fromDate : ℤ) : List HabitCorrelation :=
  let dates := getDateRange days fromDate
  let correlations := (habitPairs habits).filterMap (pairEntry dailyData dates)
  (correlations.insertionSort (fun x y => y.correlation ≤ x.correlation)).take 5

/-- JS `String.prototype.trim`: strip whitespace from both ends. -/
def trimChars (s : List Char) : List Char :=
  ((s.dropWhile Char.isWhitespace).reverse.dropWhile Char.isWhitespace).reverse

/-- The truncation step of `getRecentReflections`: a reflection longer than
100 characters is cut to its first 100 characters plus `'...'`. -/
def truncateReflection (s : List Char) : List Char :=
  if 100 < s.length then s.take 100 ++ ['.', '.', '.'] else s

/-- `getRecentReflections` of `analytics.ts`: over the most recent `days`
days, keep the reflections that are non-empty after trimming (the
`day?.reflection && day.reflection.trim().length > 0` guard), truncated; the
collected text itself is the raw, untrimmed reflection. -/
def getRecentReflections (dailyData : DailyDataMap) (days : ℕ) (fromDate : ℤ) :
    List (List Char) :=
  (getDateRange days fromDate).filterMap (fun date =>
    match lookupDay dailyData date with
    | some day =>
      match day.reflection with
      | some s =>
        if s ≠ [] ∧ trimChars s ≠ [] then some (truncateReflection s) else none
      | none => none
    | none => none)

theorem lookup_some_mem {α β : Type} [BEq α] [LawfulBEq α] :
    ∀ (l : List (α × β)) (a : α) (b : β), l.lookup a = some b → (a, b) ∈ l := by
  intro l a b
  induction l with
  | nil => intro h; cases h
  | cons hd tl ih =>
    intro h
    by_cases hab : a == hd.1
    · have ha : a = hd.1 := eq_of_beq hab
      rw [List.lookup, hab] at h
      have hb : hd.2 = b := by
        simpa using h
      have hx : (a, b) = hd := by
        rw [ha, ← hb]
      rw [hx]
      exact List.mem_cons_self hd tl
    · rw [List.lookup, Bool.of_not_eq_true hab] at h
      right
      exact ih h

theorem countP_lt_of_witness {α : Type} (p q : α → Bool) :
    ∀ (l : List α) (x : α), (∀ y ∈ l, p y = true → q y = true) → x ∈ l →
      p x = false → q x = true → l.countP p < l.countP q := by
  intro l
  induction l with
  | nil => intro x _ hx; cases hx
  | cons hd tl ih =>
    intro x himp hx hpx hqx
    have hmono : tl.countP p ≤ tl.countP q := by
      apply List.countP_mono_left
      intro y hy
      exact himp y (List.mem_cons_of_mem hd hy)
    rcases List.mem_cons.mp hx with hhd | htl
    · subst hhd
      simp only [List.countP_cons, hpx, hqx]
      simp
      omega
    · have htlt : tl.countP p < tl.countP q :=
        ih x (fun y hy => himp y (List.mem_cons_of_mem hd hy)) htl hpx hqx
      have hhd : (if p hd = true then (1:ℕ) else 0) ≤ (if q hd = true then 1 else 0) := by
        by_cases hp : p hd = true
        · simp [hp, himp hd (List.mem_cons_self hd tl) hp]
        · simp [hp]
      simp only [List.countP_cons]
      omega

theorem walkBack_measure_lt (dailyData : DailyDataMap) (habitId : HabitId) (d : ℤ)
    (hc : completedOn dailyData habitId d = true) :
    dailyData.countP (fun p => completedOn dailyData habitId p.1 && decide (p.1 ≤ d - 1)) <
      dailyData.countP (fun p => completedOn dailyData habitId p.1 && decide (p.1 ≤ d)) := by
  have hlook : ∃ r, lookupDay dailyData d = some r := by
    unfold completedOn at hc
    cases hl : lookupDay dailyData d with
    | none => rw [hl] at hc; simp at hc
    | some r => exact ⟨r, rfl⟩
  obtain ⟨r, hr⟩ := hlook
  have hmem : (d, r) ∈ dailyData := lookup_some_mem dailyData d r hr
  apply countP_lt_of_witness _ _ dailyData (d, r)
  · intro y _ hy
    simp only [Bool.and_eq_true, decide_eq_true_eq] at hy ⊢
    exact ⟨hy.1, by omega⟩
  · exact hmem
  · simp only [Bool.and_eq_false_iff]
    right
    simp only [decide_eq_false_iff_not]
    omega
  · simp only [Bool.and_eq_true, decide_eq_true_eq]
    exact ⟨hc, le_refl d⟩

/-- `getCurrentStreak` of `analytics.ts`, inner `while (true)` loop: walk
backward day by day while the habit is completed on the current date.  The
loop terminates because the daily-data map is finite: each completed step
consumes at least one map entry at the current date, so the number of
completed map entries at or before the current date strictly decreases. -/
def walkBack (dailyData : DailyDataMap) (habitId : HabitId) (d : ℤ) : ℕ :=
  if h : completedOn dailyData habitId d then walkBack dailyData habitId (d - 1) + 1
  else 0
termination_by
  dailyData.countP (fun p => completedOn dailyData habitId p.1 && decide (p.1 ≤ d))
decreasing_by
  exact walkBack_measure_lt dailyData habitId d h

/-- `getCurrentStreak` of `analytics.ts`: if the habit is not completed on
`fromDate`, start the backward walk from the previous day. -/
def getCurrentStreak (dailyData : DailyDataMap) (habitId : HabitId) (fromDate : ℤ) :
    ℕ :=
  let currentDate :=
    if completedOn dailyData habitId fromDate then fromDate else fromDate - 1
  walkBack dailyData habitId currentDate

/-- The same backward walk with explicit fuel, `none` when the fuel runs out
before the loop exits: the shape of the unbounded `while (true)` loop of the
source. -/
def walkBackFuel (dailyData : DailyDataMap) (habitId : HabitId) :
    ℕ → ℤ → Option ℕ
  | 0, _ => none
  | fuel + 1, d =>
    if completedOn dailyData habitId d then
      (walkBackFuel dailyData habitId fuel (d - 1)).map (· + 1)
    else some 0

/-!
## `habitStats.ts` — month calendar projector

`generateMonthCalendar` decomposes the reference date into year and month and
enumerates the days of that month, so here a date is an explicit
year/month/day record.  Comparing valid ISO `YYYY-MM-DD` strings
lexicographically is comparing `(year, month, day)` lexicographically, which
`ymdLt` spells out.  The month length comes from
`new Date(year, month + 1, 0).getDate()`; modelled from the spec:
"calendar-correct month-length, accounting for leap years" (the proleptic
Gregorian rule of the JS `Date` object).
-/

/-- A calendar date `YYYY-MM-DD` as the year/month/day triple (month and day
1-based as in the ISO string). -/
structure Ymd where
  year : ℕ
  month : ℕ
  day : ℕ
  deriving DecidableEq, Repr, Inhabited

/-- Lexicographic comparison of dates: the order of valid ISO date strings. -/
def ymdLt (a b : Ymd) : Bool :=
  a.year < b.year ||
    (a.year = b.year &&
      (a.month < b.month || (a.month = b.month && a.day < b.day)))

/-- Modelled from the spec: the Gregorian leap-year rule used by the JS
`Date` object. -/
def isLeapYear (y : ℕ) : Bool :=
  y % 4 = 0 && (y % 100 ≠ 0 || y % 400 = 0)

/-- Modelled from the spec: `new Date(year, month + 1, 0).getDate()`, the
number of days of the (1-based) month `m` of year `y`. -/
def daysInMonth (y m : ℕ) : ℕ :=
  if m = 2 then (if isLeapYear y then 29 else 28)
  else if m = 4 ∨ m = 6 ∨ m = 9 ∨ m = 11 then 30
  else 31

/-- `MonthCalendarDay` of `habitStats.ts`. -/
structure MonthCalendarDay where
  date : Ymd
  completed : Bool
  isToday : Bool
  isFuture : Bool
  deriving DecidableEq, Repr, Inhabited

/-- `generateMonthCalendar` of `habitStats.ts`: one entry per day of the
reference month, in ascending day order, with completion-set membership,
equality with the reference date, and the strictly-after flag. -/
def generateMonthCalendar (completionDates : List Ymd) (today : Ymd) :
    List MonthCalendarDay :=
  (List.range (daysInMonth today.year today.month)).map (fun i =>
    let date : Ymd := ⟨today.year, today.month, i + 1⟩
    { date := date
      completed := completionDates.contains date
      isToday := date = today
      isFuture := ymdLt today date })

example : (generateMonthCalendar [] ⟨2024, 2, 10⟩).length = 29 := by decide
example : (generateMonthCalendar [] ⟨2025, 2, 10⟩).length = 28 := by decide
example :
    ((generateMonthCalendar [⟨2025, 1, 20⟩] ⟨2025, 1, 15⟩).getD 19 default).completed
      = true := by decide
example :
    ((generateMonthCalendar [⟨2025, 1, 20⟩] ⟨2025, 1, 15⟩).getD 19 default).isFuture
      = true := by decide

/-!
## Helper lemmas: the current-streak loop
-/

theorem streakLoop_acc (l : List ℤ) :
    ∀ (e : ℤ) (s : ℕ), streakLoop e s l = s + streakLoop e 0 l := by
  induction l with
  | nil => intro e s; simp [streakLoop]
  | cons d rest ih =>
    intro e s
    by_cases hde : d = e
    · simp only [streakLoop, if_pos hde]
      rw [ih (e - 1) (s + 1), ih (e - 1) 1]
      omega
    · by_cases hlt : d < e
      · simp [streakLoop, hde, hlt]
      · simp only [streakLoop, if_neg hde, if_neg hlt]
        exact ih e s

theorem streakLoop_run (l : List ℤ) (hsort : l.Pairwise (fun a b => b ≤ a)) :
    ∀ e : ℤ,
      (∀ k : ℕ, k < streakLoop e 0 l → (e - (k : ℤ)) ∈ l) ∧
        (e - (streakLoop e 0 l : ℤ)) ∉ l := by
  induction l with
  | nil =>
    intro e
    constructor
    · intro k hk
      simp [streakLoop] at hk
    · simp
  | cons d rest ih =>
    intro e
    have hd : ∀ x ∈ rest, x ≤ d := (List.pairwise_cons.mp hsort).1
    have hrest := (List.pairwise_cons.mp hsort).2
    by_cases hde : d = e
    · have hrw : streakLoop e 0 (d :: rest) = 1 + streakLoop (e - 1) 0 rest := by
        simp only [streakLoop, if_pos hde]
        rw [streakLoop_acc]
      obtain ⟨h1, h2⟩ := ih hrest (e - 1)
      constructor
      · intro k hk
        rw [hrw] at hk
        rcases Nat.eq_zero_or_pos k with hk0 | hkpos
        · subst hk0
          simp [hde]
        · have : (e - (k : ℤ)) = (e - 1) - ((k - 1 : ℕ) : ℤ) := by
            push_cast [Nat.cast_sub hkpos]
            ring
          rw [this]
          exact List.mem_cons_of_mem d (h1 (k - 1) (by omega))
      · rw [hrw]
        intro hmem
        rcases List.mem_cons.mp hmem with hhd | htl
        · omega
        · have : (e - ((1 + streakLoop (e - 1) 0 rest : ℕ) : ℤ)) =
              (e - 1) - (streakLoop (e - 1) 0 rest : ℤ) := by
            push_cast
            ring
          rw [this] at htl
          exact h2 htl
    · by_cases hlt : d < e
      · have hrw : streakLoop e 0 (d :: rest) = 0 := by
          simp [streakLoop, hde, hlt]
        rw [hrw]
        constructor
        · intro k hk
          omega
        · intro hmem
          simp only [Nat.cast_zero, sub_zero] at hmem
          rcases List.mem_cons.mp hmem with hhd | htl
          · omega
          · have := hd e htl
            omega
      · have hgt : e < d := by
          omega
        have hrw : streakLoop e 0 (d :: rest) = streakLoop e 0 rest := by
          simp [streakLoop, hde, hlt]
        rw [hrw]
        obtain ⟨h1, h2⟩ := ih hrest e
        constructor
        · intro k hk
          exact List.mem_cons_of_mem d (h1 k hk)
        · intro hmem
          rcases List.mem_cons.mp hmem with hhd | htl
          · omega
          · exact h2 htl

theorem sortDesc_head_eq_max (l : List ℤ) (m : ℤ) (t : List ℤ) (h : ℤ)
    (heq : l.insertionSort (fun a b => b ≤ a) = h :: t)
    (hm : m ∈ l) (hmax : ∀ x ∈ l, x ≤ m) : h = m := by
  have hperm : (l.insertionSort (fun a b => b ≤ a)).Perm l :=
    List.perm_insertionSort _ l
  have hsorted : List.Pairwise (fun a b : ℤ => b ≤ a)
      (l.insertionSort (fun a b => b ≤ a)) :=
    List.sorted_insertionSort _ l
  rw [heq] at hperm hsorted
  have hhm : h ≤ m := hmax h (hperm.mem_iff.mp (List.mem_cons_self h t))
  have hmh : m ≤ h := by
    rcases List.mem_cons.mp (hperm.mem_iff.mpr hm) with hcase | hcase
    · omega
    · exact (List.pairwise_cons.mp hsorted).1 m hcase
  omega

/-- C6: for every completion-date list and reference date, if the most recent
completion date `m` is neither `today` nor `today - 1` then
`calculateCurrentStreak` returns 0; otherwise its result `r` is the length of
the consecutive run ending at that anchor: `m, m-1, ..., m-(r-1)` all appear
in the list and `m - r` does not. -/
theorem calculateCurrentStreak_spec (l : List ℤ) (today m : ℤ)
    (hm : m ∈ l) (hmax : ∀ x ∈ l, x ≤ m) :
    ((m ≠ today ∧ m ≠ today - 1) → calculateCurrentStreak l today = 0) ∧
      ((m = today ∨ m = today - 1) →
        (∀ k : ℕ, k < calculateCurrentStreak l today → (m - (k : ℤ)) ∈ l) ∧
          (m - (calculateCurrentStreak l today : ℤ)) ∉ l) := by
  have hne : l.insertionSort (fun a b => b ≤ a) ≠ [] := by
    intro hnil
    have hperm : (l.insertionSort (fun a b => b ≤ a)).Perm l :=
      List.perm_insertionSort _ l
    rw [hnil] at hperm
    rw [← hperm.mem_iff] at hm
    cases hm
  obtain ⟨h, t, heq⟩ := List.exists_cons_of_ne_nil hne
  have hhm : h = m := sortDesc_head_eq_max l m t h heq hm hmax
  subst hhm
  have hperm : (h :: t).Perm l := by
    rw [← heq]
    exact List.perm_insertionSort _ l
  have hsorted : List.Pairwise (fun a b : ℤ => b ≤ a) (h :: t) := by
    rw [← heq]
    exact List.sorted_insertionSort _ l
  constructor
  · intro hneither
    simp only [calculateCurrentStreak, heq]
    rw [if_pos hneither]
  · intro heither
    have hanchor : (if h = today then today else today - 1) = h := by
      by_cases hcase : h = today
      · simp [hcase]
      · have : h = today - 1 := by
          rcases heither with hc | hc
          · exact absurd hc hcase
          · exact hc
        simp [hcase, this]
    have hrw : calculateCurrentStreak l today = streakLoop h 0 (h :: t) := by
      simp only [calculateCurrentStreak, heq]
      rw [if_neg (by tauto), hanchor]
    obtain ⟨h1, h2⟩ := streakLoop_run (h :: t) hsorted h
    rw [hrw]
    constructor
    · intro k hk
      exact hperm.mem_iff.mp (h1 k hk)
    · intro hmem
      exact h2 (hperm.mem_iff.mpr hmem)

theorem calculateCurrentStreak_spec_witness :
    ((((10 : ℤ)) ≠ 10 ∧ ((10 : ℤ)) ≠ 10 - 1) →
        calculateCurrentStreak [10, 9] 10 = 0) ∧
      ((((10 : ℤ)) = 10 ∨ ((10 : ℤ)) = 10 - 1) →
        (∀ k : ℕ, k < calculateCurrentStreak [10, 9] 10 →
            ((10 : ℤ) - (k : ℤ)) ∈ [(10 : ℤ), 9]) ∧
          ((10 : ℤ) - (calculateCurrentStreak [10, 9] 10 : ℤ)) ∉ [(10 : ℤ), 9]) :=
  calculateCurrentStreak_spec [10, 9] 10 10 (by decide) (by decide)

/-!
## Helper lemmas: the longest-streak loop

The loop invariant: `p` is the processed prefix of the sorted date list,
`prev` its last (hence largest) element, `current` the length of the maximal
consecutive run of `p` ending at `prev`, and `longest` the greatest length of
any consecutive run inside `p`.
-/

theorem run_top_index (p : List ℤ) (b : ℤ) (hall : ∀ x ∈ p, x ≤ b)
    (n : ℕ) (d0 : ℤ) (hrun : ∀ k : ℕ, k < n → (d0 + (k : ℤ)) ∈ p)
    (k0 : ℕ) (hk0 : k0 < n) (htop : d0 + (k0 : ℤ) = b) : k0 = n - 1 := by
  by_contra hne
  have hlast : (d0 + ((n - 1 : ℕ) : ℤ)) ∈ p := hrun (n - 1) (by omega)
  have := hall _ hlast
  omega

theorem longestLoop_invariant :
    ∀ (rest p : List ℤ) (prev : ℤ) (current longest : ℕ),
      rest.Pairwise (fun a b : ℤ => a ≤ b) →
      (∀ x ∈ rest, prev ≤ x) →
      (∀ x ∈ p, x ≤ prev) →
      (∀ k : ℕ, k < current → (prev - (k : ℤ)) ∈ p) →
      ((prev - (current : ℤ)) ∉ p) →
      1 ≤ current →
      (∀ (n : ℕ) (d : ℤ), (∀ k : ℕ, k < n → (d + (k : ℤ)) ∈ p) → n ≤ longest) →
      current ≤ longest →
      (∀ (n : ℕ) (d : ℤ),
          (∀ k : ℕ, k < n → (d + (k : ℤ)) ∈ p ++ rest) →
            n ≤ longestLoop prev current longest rest) ∧
        longest ≤ longestLoop prev current longest rest := by
  intro rest
  induction rest with
  | nil =>
    intro p prev current longest _ _ _ _ _ _ hub hcl
    constructor
    · intro n d hrun
      exact hub n d (fun k hk => by simpa using hrun k hk)
    · exact le_refl longest
  | cons d t ih =>
    intro p prev current longest hsort hge hple hrun hgap hcur hub hcl
    have hdt : ∀ x ∈ t, d ≤ x := (List.pairwise_cons.mp hsort).1
    have ht : t.Pairwise (fun a b : ℤ => a ≤ b) := (List.pairwise_cons.mp hsort).2
    have hprevd : prev ≤ d := hge d (List.mem_cons_self d t)
    have happ : p ++ d :: t = (p ++ [d]) ++ t := by
      rw [List.append_cons]
    by_cases hsucc : d = prev + 1
    · -- the new date extends the current run
      have hrw : longestLoop prev current longest (d :: t) =
          longestLoop d (current + 1) (max longest (current + 1)) t := by
        simp [longestLoop, hsucc]
      have hple2 : ∀ x ∈ p ++ [d], x ≤ d := by
        intro x hx
        rcases List.mem_append.mp hx with hx | hx
        · have := hple x hx
          omega
        · simp at hx
          omega
      have hrun2 : ∀ k : ℕ, k < current + 1 → (d - (k : ℤ)) ∈ p ++ [d] := by
        intro k hk
        rcases Nat.eq_zero_or_pos k with hk0 | hkpos
        · subst hk0
          simp
        · have hmem := hrun (k - 1) (by omega)
          have hcast : (d - (k : ℤ)) = prev - ((k - 1 : ℕ) : ℤ) := by
            have : ((k - 1 : ℕ) : ℤ) = (k : ℤ) - 1 := by omega
            omega
          rw [hcast]
          exact List.mem_append.mpr (Or.inl hmem)
      have hgap2 : (d - ((current + 1 : ℕ) : ℤ)) ∉ p ++ [d] := by
        intro hmem
        rcases List.mem_append.mp hmem with hx | hx
        · have hcast : (d - ((current + 1 : ℕ) : ℤ)) = prev - (current : ℤ) := by
            push_cast
            omega
          rw [hcast] at hx
          exact hgap hx
        · simp at hx
          omega
      have hub2 : ∀ (n : ℕ) (d0 : ℤ),
          (∀ k : ℕ, k < n → (d0 + (k : ℤ)) ∈ p ++ [d]) →
            n ≤ max longest (current + 1) := by
        intro n d0 hrunn
        rcases Nat.eq_zero_or_pos n with hn0 | hnpos
        · omega
        · by_cases hhit : ∃ k0 : ℕ, k0 < n ∧ d0 + (k0 : ℤ) = d
          · obtain ⟨k0, hk0n, hk0d⟩ := hhit
            have hk0top : k0 = n - 1 :=
              run_top_index (p ++ [d]) d hple2 n d0 hrunn k0 hk0n hk0d
            -- the prefix of the run below `d` lies in `p` and ends at `prev`
            have hpref : ∀ k : ℕ, k < n - 1 → (d0 + (k : ℤ)) ∈ p := by
              intro k hk
              have hmem := hrunn k (by omega)
              rcases List.mem_append.mp hmem with hx | hx
              · exact hx
              · simp at hx
                omega
            by_cases hbig : current + 1 < n
            · exfalso
              have hidx : (n - 2 - current : ℕ) < n - 1 := by omega
              have hmem := hpref (n - 2 - current) hidx
              have hcast : d0 + ((n - 2 - current : ℕ) : ℤ) = prev - (current : ℤ) := by
                omega
              rw [hcast] at hmem
              exact hgap hmem
            · omega
          · push_neg at hhit
            have hin : ∀ k : ℕ, k < n → (d0 + (k : ℤ)) ∈ p := by
              intro k hk
              rcases List.mem_append.mp (hrunn k hk) with hx | hx
              · exact hx
              · simp at hx
                exact absurd hx (hhit k hk)
            have := hub n d0 hin
            omega
      have := ih (p ++ [d]) d (current + 1) (max longest (current + 1))
        ht hdt hple2 hrun2 hgap2 (by omega) hub2 (le_max_right _ _)
      rw [hrw, happ]
      exact ⟨this.1, le_trans (le_max_left _ _) this.2⟩
    · by_cases hdup : d = prev
      · -- duplicate date: state unchanged
        have hrw : longestLoop prev current longest (d :: t) =
            longestLoop d current longest t := by
          simp [longestLoop, hsucc, hdup]
        have hprevp : prev ∈ p := by
          have := hrun 0 (by omega)
          simpa using this
        have hple2 : ∀ x ∈ p ++ [d], x ≤ d := by
          intro x hx
          rcases List.mem_append.mp hx with hx | hx
          · have := hple x hx
            omega
          · simp at hx
            omega
        have hrun2 : ∀ k : ℕ, k < current → (d - (k : ℤ)) ∈ p ++ [d] := by
          intro k hk
          have := hrun k hk
          rw [hdup]
          exact List.mem_append.mpr (Or.inl this)
        have hgap2 : (d - (current : ℤ)) ∉ p ++ [d] := by
          intro hmem
          rcases List.mem_append.mp hmem with hx | hx
          · rw [hdup] at hx
            exact hgap hx
          · simp at hx
            omega
        have hub2 : ∀ (n : ℕ) (d0 : ℤ),
            (∀ k : ℕ, k < n → (d0 + (k : ℤ)) ∈ p ++ [d]) → n ≤ longest := by
          intro n d0 hrunn
          apply hub n d0
          intro k hk
          rcases List.mem_append.mp (hrunn k hk) with hx | hx
          · exact hx
          · simp at hx
            rw [hx, hdup]
            exact hprevp
        have hget : ∀ x ∈ t, d ≤ x := hdt
        have := ih (p ++ [d]) d current longest ht hget hple2
          (by rw [hdup] at hrun2 ⊢; exact hrun2)
          (by rw [hdup] at hgap2 ⊢; exact hgap2) hcur hub2 hcl
        rw [hrw, happ]
        exact this
      · -- gap: the run restarts at `d`
        have hfar : prev + 1 < d := by
          rcases lt_or_eq_of_le hprevd with hlt | heq
          · omega
          · omega
        have hrw : longestLoop prev current longest (d :: t) =
            longestLoop d 1 longest t := by
          simp [longestLoop, hsucc, hdup]
        have hple2 : ∀ x ∈ p ++ [d], x ≤ d := by
          intro x hx
          rcases List.mem_append.mp hx with hx | hx
          · have := hple x hx
            omega
          · simp at hx
            omega
        have hrun2 : ∀ k : ℕ, k < 1 → (d - (k : ℤ)) ∈ p ++ [d] := by
          intro k hk
          have hk0 : k = 0 := by omega
          subst hk0
          simp
        have hgap2 : (d - ((1 : ℕ) : ℤ)) ∉ p ++ [d] := by
          intro hmem
          rcases List.mem_append.mp hmem with hx | hx
          · have := hple _ hx
            omega
          · simp at hx
        have hub2 : ∀ (n : ℕ) (d0 : ℤ),
            (∀ k : ℕ, k < n → (d0 + (k : ℤ)) ∈ p ++ [d]) → n ≤ longest := by
          intro n d0 hrunn
          rcases Nat.eq_zero_or_pos n with hn0 | hnpos
          · omega
          · by_cases hhit : ∃ k0 : ℕ, k0 < n ∧ d0 + (k0 : ℤ) = d
            · obtain ⟨k0, hk0n, hk0d⟩ := hhit
              have hk0top : k0 = n - 1 :=
                run_top_index (p ++ [d]) d hple2 n d0 hrunn k0 hk0n hk0d
              by_cases hn1 : n = 1
              · omega
              · exfalso
                have hmem := hrunn (n - 2) (by omega)
                have hcast : d0 + ((n - 2 : ℕ) : ℤ) = d - 1 := by
                  omega
                rw [hcast] at hmem
                rcases List.mem_append.mp hmem with hx | hx
                · have := hple _ hx
                  omega
                · simp at hx
            · push_neg at hhit
              apply hub n d0
              intro k hk
              rcases List.mem_append.mp (hrunn k hk) with hx | hx
              · exact hx
              · simp at hx
                exact absurd hx (hhit k hk)
        have := ih (p ++ [d]) d 1 longest ht hdt hple2 hrun2 hgap2
          (le_refl 1) hub2 (by omega)
        rw [hrw, happ]
        exact this

theorem longestLoop_achieved :
    ∀ (rest p : List ℤ) (prev : ℤ) (current longest : ℕ),
      (∀ k : ℕ, k < current → (prev - (k : ℤ)) ∈ p) →
      1 ≤ current →
      (∃ d : ℤ, ∀ k : ℕ, k < longest → (d + (k : ℤ)) ∈ p) →
      current ≤ longest →
      ∃ d : ℤ, ∀ k : ℕ, k < longestLoop prev current longest rest →
          (d + (k : ℤ)) ∈ p ++ rest := by
  intro rest
  induction rest with
  | nil =>
    intro p prev current longest _ _ hwit _
    obtain ⟨d0, hd0⟩ := hwit
    exact ⟨d0, fun k hk => by simpa using hd0 k hk⟩
  | cons d t ih =>
    intro p prev current longest hrun hcur hwit hcl
    have happ : p ++ d :: t = (p ++ [d]) ++ t := by
      rw [List.append_cons]
    by_cases hsucc : d = prev + 1
    · have hrw : longestLoop prev current longest (d :: t) =
          longestLoop d (current + 1) (max longest (current + 1)) t := by
        simp [longestLoop, hsucc]
      have hrun2 : ∀ k : ℕ, k < current + 1 → (d - (k : ℤ)) ∈ p ++ [d] := by
        intro k hk
        rcases Nat.eq_zero_or_pos k with hk0 | hkpos
        · subst hk0
          simp
        · have hmem := hrun (k - 1) (by omega)
          have hcast : (d - (k : ℤ)) = prev - ((k - 1 : ℕ) : ℤ) := by
            omega
          rw [hcast]
          exact List.mem_append.mpr (Or.inl hmem)
      have hwit2 : ∃ d0 : ℤ, ∀ k : ℕ, k < max longest (current + 1) →
          (d0 + (k : ℤ)) ∈ p ++ [d] := by
        by_cases hmx : current + 1 ≤ longest
        · obtain ⟨d0, hd0⟩ := hwit
          refine ⟨d0, fun k hk => ?_⟩
          have : k < longest := by omega
          exact List.mem_append.mpr (Or.inl (hd0 k this))
        · refine ⟨d - (current : ℤ), fun k hk => ?_⟩
          have hklt : k < current + 1 := by omega
          have hcast : d - (current : ℤ) + (k : ℤ) = d - ((current - k : ℕ) : ℤ) := by
            omega
          rw [hcast]
          exact hrun2 (current - k) (by omega)
      have := ih (p ++ [d]) d (current + 1) (max longest (current + 1))
        hrun2 (by omega) hwit2 (le_max_right _ _)
      rw [hrw, happ]
      exact this
    · by_cases hdup : d = prev
      · have hrw : longestLoop prev current longest (d :: t) =
            longestLoop d current longest t := by
          simp [longestLoop, hsucc, hdup]
        have hrun2 : ∀ k : ℕ, k < current → (d - (k : ℤ)) ∈ p ++ [d] := by
          intro k hk
          rw [hdup]
          exact List.mem_append.mpr (Or.inl (hrun k hk))
        have hwit2 : ∃ d0 : ℤ, ∀ k : ℕ, k < longest → (d0 + (k : ℤ)) ∈ p ++ [d] := by
          obtain ⟨d0, hd0⟩ := hwit
          exact ⟨d0, fun k hk => List.mem_append.mpr (Or.inl (hd0 k hk))⟩
        have := ih (p ++ [d]) d current longest hrun2 hcur hwit2 hcl
        rw [hrw, happ]
        exact this
      · have hrw : longestLoop prev current longest (d :: t) =
            longestLoop d 1 longest t := by
          simp [longestLoop, hsucc, hdup]
        have hrun2 : ∀ k : ℕ, k < 1 → (d - (k : ℤ)) ∈ p ++ [d] := by
          intro k hk
          have hk0 : k = 0 := by omega
          subst hk0
          simp
        have hwit2 : ∃ d0 : ℤ, ∀ k : ℕ, k < longest → (d0 + (k : ℤ)) ∈ p ++ [d] := by
          obtain ⟨d0, hd0⟩ := hwit
          exact ⟨d0, fun k hk => List.mem_append.mpr (Or.inl (hd0 k hk))⟩
        have := ih (p ++ [d]) d 1 longest hrun2 (le_refl 1) hwit2 (by omega)
        rw [hrw, happ]
        exact this

theorem calculateLongestStreak_greatest (l : List ℤ) (hne : l ≠ []) :
    1 ≤ calculateLongestStreak l ∧
      (∃ d : ℤ, ∀ k : ℕ, k < calculateLongestStreak l → (d + (k : ℤ)) ∈ l) ∧
      (∀ (n : ℕ) (d : ℤ), (∀ k : ℕ, k < n → (d + (k : ℤ)) ∈ l) →
        n ≤ calculateLongestStreak l) := by
  have hnes : l.insertionSort (fun a b => a ≤ b) ≠ [] := by
    intro hnil
    have hperm : (l.insertionSort (fun a b => a ≤ b)).Perm l :=
      List.perm_insertionSort _ l
    rw [hnil] at hperm
    exact hne (hperm.symm.eq_nil)
  obtain ⟨d, rest, heq⟩ := List.exists_cons_of_ne_nil hnes
  have hperm : (d :: rest).Perm l := by
    rw [← heq]
    exact List.perm_insertionSort _ l
  have hsorted : List.Pairwise (fun a b : ℤ => a ≤ b) (d :: rest) := by
    rw [← heq]
    exact List.sorted_insertionSort _ l
  have hrw : calculateLongestStreak l = longestLoop d 1 1 rest := by
    simp only [calculateLongestStreak, heq]
  have hrun1 : ∀ k : ℕ, k < 1 → (d - (k : ℤ)) ∈ [d] := by
    intro k hk
    have hk0 : k = 0 := by omega
    subst hk0
    simp
  have hgap1 : (d - ((1 : ℕ) : ℤ)) ∉ [d] := by
    simp
  have hwit1 : ∃ d0 : ℤ, ∀ k : ℕ, k < 1 → (d0 + (k : ℤ)) ∈ [d] := by
    refine ⟨d, fun k hk => ?_⟩
    have hk0 : k = 0 := by omega
    subst hk0
    simp
  have hub1 : ∀ (n : ℕ) (d0 : ℤ), (∀ k : ℕ, k < n → (d0 + (k : ℤ)) ∈ [d]) → n ≤ 1 := by
    intro n d0 hr
    by_contra hn
    have h0 := hr 0 (by omega)
    have h1 := hr 1 (by omega)
    simp at h0 h1
    omega
  obtain ⟨hub, hlong⟩ := longestLoop_invariant rest [d] d 1 1
    (List.pairwise_cons.mp hsorted).2 (List.pairwise_cons.mp hsorted).1
    (by intro x hx; simp at hx; omega) hrun1 hgap1 (le_refl 1) hub1 (le_refl 1)
  obtain ⟨d0, hach⟩ := longestLoop_achieved rest [d] d 1 1 hrun1 (le_refl 1)
    hwit1 (le_refl 1)
  rw [hrw]
  refine ⟨by omega, ⟨d0, fun k hk => ?_⟩, fun n d1 hr => ?_⟩
  · have := hach k hk
    rw [← List.singleton_append] at this
    exact hperm.mem_iff.mp (by simpa using this)
  · apply hub n d1
    intro k hk
    have := hr k hk
    rw [List.singleton_append]
    exact hperm.mem_iff.mpr this

/-- C7: `calculateLongestStreak` returns 0 for an empty list; for a non-empty
list it returns the maximum length over runs of consecutive calendar days
present in the list (duplicates neither break nor extend a run, since only
membership matters), and that maximum is at least 1.  The result `r` is
characterised as the greatest `n` for which some `n` consecutive days all
appear in the list: such a run of length `r` exists, and no run can be
longer. -/
theorem calculateLongestStreak_spec (l : List ℤ) :
    (l = [] → calculateLongestStreak l = 0) ∧
      (l ≠ [] →
        1 ≤ calculateLongestStreak l ∧
          (∃ d : ℤ, ∀ k : ℕ, k < calculateLongestStreak l → (d + (k : ℤ)) ∈ l) ∧
          (∀ (n : ℕ) (d : ℤ), (∀ k : ℕ, k < n → (d + (k : ℤ)) ∈ l) →
            n ≤ calculateLongestStreak l)) := by
  constructor
  · intro hnil
    subst hnil
    rfl
  · intro hne
    exact calculateLongestStreak_greatest l hne

theorem calculateLongestStreak_spec_witness :
    (([(1 : ℤ), 1, 2] = []) → calculateLongestStreak [1, 1, 2] = 0) ∧
      (([(1 : ℤ), 1, 2] ≠ []) →
        1 ≤ calculateLongestStreak [1, 1, 2] ∧
          (∃ d : ℤ, ∀ k : ℕ, k < calculateLongestStreak [1, 1, 2] →
            (d + (k : ℤ)) ∈ [(1 : ℤ), 1, 2]) ∧
          (∀ (n : ℕ) (d : ℤ),
            (∀ k : ℕ, k < n → (d + (k : ℤ)) ∈ [(1 : ℤ), 1, 2]) →
              n ≤ calculateLongestStreak [1, 1, 2])) :=
  calculateLongestStreak_spec [1, 1, 2]

theorem currentStreak_run (l : List ℤ) (today : ℤ) :
    ∃ m : ℤ, ∀ k : ℕ, k < calculateCurrentStreak l today → (m - (k : ℤ)) ∈ l := by
  cases heq : l.insertionSort (fun a b => b ≤ a) with
  | nil =>
    refine ⟨0, fun k hk => ?_⟩
    simp only [calculateCurrentStreak, heq] at hk
    omega
  | cons h t =>
    have hperm : (h :: t).Perm l := by
      rw [← heq]
      exact List.perm_insertionSort _ l
    have hsorted : List.Pairwise (fun a b : ℤ => b ≤ a) (h :: t) := by
      rw [← heq]
      exact List.sorted_insertionSort _ l
    by_cases hcond : h ≠ today ∧ h ≠ today - 1
    · refine ⟨0, fun k hk => ?_⟩
      simp only [calculateCurrentStreak, heq, if_pos hcond] at hk
      omega
    · have hanchor : (if h = today then today else today - 1) = h := by
        by_cases hcase : h = today
        · simp [hcase]
        · have : h = today - 1 := by tauto
          simp [hcase, this]
      have hrw : calculateCurrentStreak l today = streakLoop h 0 (h :: t) := by
        simp only [calculateCurrentStreak, heq]
        rw [if_neg hcond, hanchor]
      obtain ⟨h1, _⟩ := streakLoop_run (h :: t) hsorted h
      refine ⟨h, fun k hk => ?_⟩
      rw [hrw] at hk
      exact hperm.mem_iff.mp (h1 k hk)

/-- C9: the current streak never exceeds the longest streak: the consecutive
run that `calculateCurrentStreak` counts is one of the runs over which
`calculateLongestStreak` maximises. -/
theorem currentStreak_le_longestStreak (l : List ℤ) (today : ℤ) :
    calculateCurrentStreak l today ≤ calculateLongestStreak l := by
  obtain ⟨m, hrun⟩ := currentStreak_run l today
  rcases Nat.eq_zero_or_pos (calculateCurrentStreak l today) with hz | hpos
  · omega
  · have hne : l ≠ [] := by
      intro hnil
      have := hrun 0 hpos
      rw [hnil] at this
      cases this
    obtain ⟨_, _, hub⟩ := calculateLongestStreak_greatest l hne
    apply hub (calculateCurrentStreak l today) (m - (calculateCurrentStreak l today : ℤ) + 1)
    intro k hk
    have hmem := hrun (calculateCurrentStreak l today - 1 - k) (by omega)
    have hcast : m - ((calculateCurrentStreak l today - 1 - k : ℕ) : ℤ) =
        m - (calculateCurrentStreak l today : ℤ) + 1 + (k : ℤ) := by
      omega
    rw [hcast] at hmem
    exact hmem

/-!
## Period stats: C8 and C4
-/

/-- C8: for a completion-date set (no duplicates) and a window with
`start ≤ end`, `calculatePeriodStats` returns the inclusive day-count as
`total`, the number of completion dates inside the window as `completed`
(so `0 ≤ completed ≤ total`), and
`percentage = round(completed / total * 100)`; moreover `total = 0` always
forces `percentage = 0`. -/
theorem calculatePeriodStats_spec (l : List ℤ) (s e : ℤ)
    (hnd : l.Nodup) (hse : s ≤ e) :
    (calculatePeriodStats l s e).total = e - s + 1 ∧
      (calculatePeriodStats l s e).completed =
        ((l.filter (fun date => s ≤ date ∧ date ≤ e)).length : ℤ) ∧
      0 ≤ (calculatePeriodStats l s e).completed ∧
      (calculatePeriodStats l s e).completed ≤ (calculatePeriodStats l s e).total ∧
      (calculatePeriodStats l s e).percentage =
        jsRound (((calculatePeriodStats l s e).completed : ℚ) /
          ((calculatePeriodStats l s e).total : ℚ) * 100) ∧
      (∀ s2 e2 : ℤ, (calculatePeriodStats l s2 e2).total = 0 →
        (calculatePeriodStats l s2 e2).percentage = 0) := by
  have htotal : (calculatePeriodStats l s e).total = e - s + 1 := rfl
  have hcompleted : (calculatePeriodStats l s e).completed =
      ((l.filter (fun date => s ≤ date ∧ date ≤ e)).length : ℤ) := rfl
  have hbound : ((l.filter (fun date => s ≤ date ∧ date ≤ e)).length : ℤ) ≤ e - s + 1 := by
    set F := l.filter (fun date => s ≤ date ∧ date ≤ e) with hF
    have hndF : F.Nodup := hnd.filter _
    have hsub : F.toFinset ⊆ Finset.Icc s e := by
      intro x hx
      rw [List.mem_toFinset] at hx
      have hmem := List.of_mem_filter hx
      simp only [decide_eq_true_eq] at hmem
      exact Finset.mem_Icc.mpr hmem
    have hcard : F.toFinset.card = F.length := List.toFinset_card_of_nodup hndF
    have hle : F.toFinset.card ≤ (Finset.Icc s e).card := Finset.card_le_card hsub
    rw [hcard, Int.card_Icc] at hle
    omega
  have hpos : (0 : ℤ) < e - s + 1 := by omega
  have hpct : (calculatePeriodStats l s e).percentage =
      percentOf (calculatePeriodStats l s e).completed (e - s + 1) := by
    simp only [calculatePeriodStats, countDays]
    rw [if_pos (by omega : (0 : ℤ) < e - s + 1)]
  refine ⟨htotal, hcompleted, ?_, ?_, ?_, ?_⟩
  · rw [hcompleted]
    positivity
  · rw [hcompleted, htotal]
    exact hbound
  · rw [hpct, htotal]
    exact percentOf_eq_jsRound _ _ hpos
  · intro s2 e2 hzero
    have : ¬ (0 : ℤ) < (countDays s2 e2) := by
      have h2 : (calculatePeriodStats l s2 e2).total = countDays s2 e2 := rfl
      omega
    simp only [calculatePeriodStats]
    rw [if_neg this]

theorem calculatePeriodStats_spec_witness :
    ([(1 : ℤ), 2].Nodup ∧ (1 : ℤ) ≤ 3) ∧
      ((calculatePeriodStats [1, 2] 1 3).total = 3 - 1 + 1 ∧
        (calculatePeriodStats [1, 2] 1 3).completed =
          ((([(1 : ℤ), 2]).filter (fun date => 1 ≤ date ∧ date ≤ 3)).length : ℤ) ∧
        0 ≤ (calculatePeriodStats [1, 2] 1 3).completed ∧
        (calculatePeriodStats [1, 2] 1 3).completed ≤
          (calculatePeriodStats [1, 2] 1 3).total ∧
        (calculatePeriodStats [1, 2] 1 3).percentage =
          jsRound (((calculatePeriodStats [1, 2] 1 3).completed : ℚ) /
            ((calculatePeriodStats [1, 2] 1 3).total : ℚ) * 100) ∧
        (∀ s2 e2 : ℤ, (calculatePeriodStats [1, 2] s2 e2).total = 0 →
          (calculatePeriodStats [1, 2] s2 e2).percentage = 0)) :=
  ⟨⟨by decide, by decide⟩,
    calculatePeriodStats_spec [1, 2] 1 3 (by decide) (by decide)⟩

/-- C4 counterexample: for the inverted window `start = 5`, `end = 2` the
returned `total` is `-2`, not zero, so the result is not the all-zero/empty
record the claim demands. -/
theorem calculatePeriodStats_inverted_counterexample :
    (calculatePeriodStats [] 5 2).total = -2 ∧
      (calculatePeriodStats [] 5 2).total ≠ 0 := by
  decide

/-- C4 (amended): for a window whose end is chronologically before its start,
`calculatePeriodStats` does not fail and returns `completed = 0` and
`percentage = 0`, but `total` is `end - start + 1`, which is at most 0 (and
negative when `end < start - 1`) rather than zero. -/
theorem calculatePeriodStats_inverted_window (l : List ℤ) (s e : ℤ) (hse : e < s) :
    (calculatePeriodStats l s e).completed = 0 ∧
      (calculatePeriodStats l s e).percentage = 0 ∧
      (calculatePeriodStats l s e).total = e - s + 1 ∧
      (calculatePeriodStats l s e).total ≤ 0 := by
  have hfil : l.filter (fun date => s ≤ date ∧ date ≤ e) = [] := by
    rw [List.filter_eq_nil_iff]
    intro a _
    simp only [decide_eq_true_eq]
    omega
  have hcompleted : (calculatePeriodStats l s e).completed =
      ((l.filter (fun date => s ≤ date ∧ date ≤ e)).length : ℤ) := rfl
  have htotal : (calculatePeriodStats l s e).total = e - s + 1 := rfl
  have hnpos : ¬ (0 : ℤ) < countDays s e := by
    simp only [countDays]
    omega
  refine ⟨?_, ?_, htotal, by omega⟩
  · rw [hcompleted, hfil]
    rfl
  · simp only [calculatePeriodStats]
    rw [if_neg hnpos]

theorem calculatePeriodStats_inverted_window_witness :
    ((2 : ℤ) < 5) ∧
      ((calculatePeriodStats [] 5 2).completed = 0 ∧
        (calculatePeriodStats [] 5 2).percentage = 0 ∧
        (calculatePeriodStats [] 5 2).total = 2 - 5 + 1 ∧
        (calculatePeriodStats [] 5 2).total ≤ 0) :=
  ⟨by decide, calculatePeriodStats_inverted_window [] 5 2 (by decide)⟩

/-!
## Analytics: C10, C2
-/

theorem walkBack_unfold (dailyData : DailyDataMap) (habitId : HabitId) (d : ℤ) :
    walkBack dailyData habitId d =
      if completedOn dailyData habitId d then walkBack dailyData habitId (d - 1) + 1
      else 0 := by
  rw [walkBack]
  by_cases hc : completedOn dailyData habitId d
  · rw [dif_pos hc, if_pos hc]
  · rw [dif_neg hc, if_neg hc]

theorem walkBackFuel_stabilises (dailyData : DailyDataMap) (habitId : HabitId) :
    ∀ (fuel : ℕ) (d : ℤ),
      dailyData.countP
          (fun p => completedOn dailyData habitId p.1 && decide (p.1 ≤ d)) < fuel →
        walkBackFuel dailyData habitId fuel d = some (walkBack dailyData habitId d) := by
  intro fuel
  induction fuel with
  | zero => intro d hd; omega
  | succ fuel ih =>
    intro d hd
    by_cases hc : completedOn dailyData habitId d
    · have hlt := walkBack_measure_lt dailyData habitId d hc
      have hih := ih (d - 1) (by omega)
      have hfuel : walkBackFuel dailyData habitId (fuel + 1) d =
          (walkBackFuel dailyData habitId fuel (d - 1)).map (· + 1) := by
        simp [walkBackFuel, hc]
      rw [hfuel, hih, walkBack_unfold dailyData habitId d, if_pos hc]
      rfl
    · simp only [walkBackFuel, if_neg hc]
      rw [walkBack_unfold, if_neg hc]

/-- C10: the backward day-by-day walk of the analytics module's
`getCurrentStreak` terminates on every finite daily-data map: run with fuel
`|dailyData| + 1`, the unbounded `while (true)` loop exits (the fuelled walk
returns `some`, never hitting fuel exhaustion) and yields exactly the
(non-negative, `ℕ`-valued) streak count of `getCurrentStreak`. -/
theorem getCurrentStreak_terminates (dailyData : DailyDataMap) (habitId : HabitId)
    (fromDate : ℤ) :
    walkBackFuel dailyData habitId (dailyData.length + 1)
        (if completedOn dailyData habitId fromDate then fromDate else fromDate - 1) =
      some (getCurrentStreak dailyData habitId fromDate) := by
  apply walkBackFuel_stabilises
  have := List.countP_le_length
    (fun p : ℤ × DayRecord => completedOn dailyData habitId p.1 &&
      decide (p.1 ≤ if completedOn dailyData habitId fromDate then fromDate
        else fromDate - 1)) (l := dailyData)
  omega

theorem rateStep_counts (dailyData : DailyDataMap) (habitId : HabitId) :
    ∀ (dates : List ℤ) (c t : ℕ),
      dates.foldl (rateStep dailyData habitId) (c, t) =
        (c + dates.countP (completedOn dailyData habitId),
          t + dates.countP (observedOn dailyData habitId)) := by
  intro dates
  induction dates with
  | nil => intro c t; simp
  | cons d rest ih =>
    intro c t
    have hstep : rateStep dailyData habitId (c, t) d =
        (c + (if completedOn dailyData habitId d then 1 else 0),
          t + (if observedOn dailyData habitId d then 1 else 0)) := by
      unfold rateStep observedOn completedOn
      cases hl : lookupDay dailyData d with
      | none => simp
      | some day =>
        cases hb : day.habits habitId with
        | none => simp [hb]
        | some b => cases b <;> simp [hb]
    rw [List.foldl_cons, hstep, ih]
    rw [List.countP_cons, List.countP_cons]
    simp only [Prod.mk.injEq]
    constructor <;> omega

/-- C2: `getCompletionRate` equals the spec-side rate whose denominator is
the number of window days whose per-day record explicitly contains a boolean
for the habit (days without a record, or whose record lacks an entry for the
habit, are not counted), and which is 0 when no day is observed. -/
theorem getCompletionRate_eq_spec (dailyData : DailyDataMap) (habitId : HabitId)
    (dates : List ℤ) :
    getCompletionRate dailyData habitId dates =
      completionRateSpec dailyData habitId dates := by
  unfold getCompletionRate completionRateSpec
  rw [rateStep_counts dailyData habitId dates 0 0]
  simp

/-!
## Reflections: C5
-/

/-- C5 counterexample: a reflection with leading whitespace is returned
verbatim, not trimmed — trimming is only used for the emptiness test. -/
theorem getRecentReflections_counterexample :
    getRecentReflections [((0 : ℤ), ⟨fun _ => none, some [' ', 'x']⟩)] 7 0 =
        [[' ', 'x']] ∧
      trimChars [' ', 'x'] = ['x'] ∧
      ([' ', 'x'] : List Char) ≠ ['x'] := by
  decide

/-- C5 (amended): over the most recent 7 days, `getRecentReflections`
returns exactly the stored reflections whose trimmed text is non-empty —
each kept verbatim (not trimmed) — with any entry longer than 100 characters
truncated to its first 100 characters plus an ellipsis marker. -/
theorem getRecentReflections_spec (dailyData : DailyDataMap) (fromDate : ℤ) :
    getRecentReflections dailyData 7 fromDate =
      (((getDateRange 7 fromDate).filterMap
            (fun date => (lookupDay dailyData date).bind
              (fun day => day.reflection))).filter
          (fun s => trimChars s ≠ [])).map truncateReflection := by
  unfold getRecentReflections
  generalize getDateRange 7 fromDate = ds
  induction ds with
  | nil => simp
  | cons d rest ih =>
    rw [List.filterMap_cons, List.filterMap_cons]
    cases hl : lookupDay dailyData d with
    | none => simpa [hl] using ih
    | some day =>
      cases hr : day.reflection with
      | none => simpa [hl, hr] using ih
      | some s =>
        by_cases hts : trimChars s = []
        · simpa [hl, hr, hts] using ih
        · have hs : s ≠ [] := by
            intro h0
            apply hts
            rw [h0]
            rfl
          simpa [hl, hr, hts, hs, List.filter_cons] using ih

/-!
## Calendar projector: C1
-/

/-- C1 counterexample: with `today = 2025-01-15` and the future date
`2025-01-20` present in the completion set, the generated entry for
`2025-01-20` is strictly after `today` and has `isFuture = true` but
`completed = true`, not `false`. -/
theorem generateMonthCalendar_counterexample :
    ((generateMonthCalendar [⟨2025, 1, 20⟩] ⟨2025, 1, 15⟩).getD 19 default).isFuture
        = true ∧
      ((generateMonthCalendar [⟨2025, 1, 20⟩] ⟨2025, 1, 15⟩).getD 19 default).completed
        = true ∧
      ymdLt ⟨2025, 1, 15⟩
          ((generateMonthCalendar [⟨2025, 1, 20⟩] ⟨2025, 1, 15⟩).getD 19 default).date
        = true := by
  decide

/-- C1 (amended): every generated entry whose date is strictly after `today`
has `isFuture = true`, and its `completed` flag equals membership of that
date in the input completion set — so it is `false` exactly when the caller
passes no completion on that future date (the code does not force future
days to `completed = false`). -/
theorem generateMonthCalendar_future_entries (completionDates : List Ymd)
    (today : Ymd) :
    ∀ e ∈ generateMonthCalendar completionDates today, ymdLt today e.date = true →
      e.isFuture = true ∧
        e.completed = completionDates.contains e.date ∧
        ((∀ c ∈ completionDates, ymdLt today c = false) → e.completed = false) := by
  intro e he hfut
  unfold generateMonthCalendar at he
  rw [List.mem_map] at he
  obtain ⟨i, _, hei⟩ := he
  subst hei
  refine ⟨hfut, rfl, ?_⟩
  intro hall
  cases hc : completionDates.contains (⟨today.year, today.month, i + 1⟩ : Ymd) with
  | false => exact hc
  | true =>
    have hmem : (⟨today.year, today.month, i + 1⟩ : Ymd) ∈ completionDates :=
      List.elem_iff.mp hc
    have := hall _ hmem
    rw [this] at hfut
    cases hfut

theorem generateMonthCalendar_future_entries_witness :
    ((⟨⟨2025, 1, 20⟩, true, false, true⟩ : MonthCalendarDay) ∈
        generateMonthCalendar [⟨2025, 1, 20⟩] ⟨2025, 1, 15⟩ ∧
      ymdLt ⟨2025, 1, 15⟩
          (⟨⟨2025, 1, 20⟩, true, false, true⟩ : MonthCalendarDay).date = true) ∧
      ((⟨⟨2025, 1, 20⟩, true, false, true⟩ : MonthCalendarDay).isFuture = true ∧
        (⟨⟨2025, 1, 20⟩, true, false, true⟩ : MonthCalendarDay).completed =
          ([⟨2025, 1, 20⟩] : List Ymd).contains
            (⟨⟨2025, 1, 20⟩, true, false, true⟩ : MonthCalendarDay).date ∧
        ((∀ c ∈ ([⟨2025, 1, 20⟩] : List Ymd), ymdLt ⟨2025, 1, 15⟩ c = false) →
          (⟨⟨2025, 1, 20⟩, true, false, true⟩ : MonthCalendarDay).completed = false)) :=
  ⟨⟨by decide, by decide⟩,
    generateMonthCalendar_future_entries [⟨2025, 1, 20⟩] ⟨2025, 1, 15⟩
      ⟨⟨2025, 1, 20⟩, true, false, true⟩ (by decide) (by decide)⟩

/-!
## Correlations: C3
-/

/-- C3: `computeCorrelations` returns at most 5 entries, sorted in
non-increasing order of correlation; every returned entry has
`correlation ≥ 50` and arises from a habit pair with `eitherDone > 0`, its
correlation being `round(bothDone / eitherDone * 100)` for that pair and its
labels the pair's labels. -/
theorem computeCorrelations_spec (dailyData : DailyDataMap)
    (habits : List HabitDefinition) (days : ℕ) (fromDate : ℤ) :
    (computeCorrelations dailyData habits days fromDate).length ≤ 5 ∧
      List.Pairwise (fun x y : HabitCorrelation => y.correlation ≤ x.correlation)
        (computeCorrelations dailyData habits days fromDate) ∧
      (∀ e ∈ computeCorrelations dailyData habits days fromDate,
        50 ≤ e.correlation ∧
          ∃ p ∈ habitPairs habits,
            0 < eitherDoneCount dailyData p.1.id p.2.id (getDateRange days fromDate) ∧
              e.correlation = jsRound
                ((bothDoneCount dailyData p.1.id p.2.id (getDateRange days fromDate) : ℚ) /
                  (eitherDoneCount dailyData p.1.id p.2.id (getDateRange days fromDate) : ℚ)
                    * 100) ∧
              e.habitA = p.1.label ∧ e.habitB = p.2.label) := by
  have hsorted : List.Pairwise
      (fun x y : HabitCorrelation => y.correlation ≤ x.correlation)
      (((habitPairs habits).filterMap
          (pairEntry dailyData (getDateRange days fromDate))).insertionSort
        (fun x y => y.correlation ≤ x.correlation)) :=
    List.sorted_insertionSort _ _
  have hperm := List.perm_insertionSort
    (fun x y : HabitCorrelation => y.correlation ≤ x.correlation)
    ((habitPairs habits).filterMap (pairEntry dailyData (getDateRange days fromDate)))
  refine ⟨List.length_take_le 5 _, ?_, ?_⟩
  · exact List.Pairwise.sublist (List.take_sublist 5 _) hsorted
  · intro e he
    have hmem : e ∈ (habitPairs habits).filterMap
        (pairEntry dailyData (getDateRange days fromDate)) := by
      apply hperm.mem_iff.mp
      exact (List.take_sublist 5 _).subset he
    rw [List.mem_filterMap] at hmem
    obtain ⟨p, hp, hpe⟩ := hmem
    unfold pairEntry at hpe
    by_cases h1 : 0 < eitherDoneCount dailyData p.1.id p.2.id (getDateRange days fromDate)
    · rw [if_pos h1] at hpe
      by_cases h2 : (50 : ℤ) ≤ percentOf
          (bothDoneCount dailyData p.1.id p.2.id (getDateRange days fromDate))
          (eitherDoneCount dailyData p.1.id p.2.id (getDateRange days fromDate))
      · rw [if_pos h2] at hpe
        have he2 := (Option.some.injEq _ _).mp hpe
        subst he2
        refine ⟨h2, p, hp, h1, ?_, rfl, rfl⟩
        have hcast : (0 : ℤ) <
            (eitherDoneCount dailyData p.1.id p.2.id (getDateRange days fromDate) : ℤ) := by
          exact_mod_cast h1
        rw [percentOf_eq_jsRound _ _ hcast]
        dsimp only
        congr 1
      · rw [if_neg h2] at hpe
        cases hpe
    · rw [if_neg h1] at hpe
      cases hpe

theorem computeCorrelations_spec_witness :
    ((⟨"A", "B", (100 : ℤ)⟩ : HabitCorrelation) ∈
        computeCorrelations [((0 : ℤ), ⟨fun _ => some true, none⟩)]
          [⟨"a", "A"⟩, ⟨"b", "B"⟩] 1 0) ∧
      (50 ≤ (⟨"A", "B", (100 : ℤ)⟩ : HabitCorrelation).correlation ∧
        ∃ p ∈ habitPairs [⟨"a", "A"⟩, ⟨"b", "B"⟩],
          0 < eitherDoneCount [((0 : ℤ), ⟨fun _ => some true, none⟩)]
            p.1.id p.2.id (getDateRange 1 0) ∧
            (⟨"A", "B", (100 : ℤ)⟩ : HabitCorrelation).correlation = jsRound
              ((bothDoneCount [((0 : ℤ), ⟨fun _ => some true, none⟩)]
                  p.1.id p.2.id (getDateRange 1 0) : ℚ) /
                (eitherDoneCount [((0 : ℤ), ⟨fun _ => some true, none⟩)]
                  p.1.id p.2.id (getDateRange 1 0) : ℚ) * 100) ∧
            (⟨"A", "B", (100 : ℤ)⟩ : HabitCorrelation).habitA = p.1.label ∧
            (⟨"A", "B", (100 : ℤ)⟩ : HabitCorrelation).habitB = p.2.label) :=
  ⟨by decide,
    (computeCorrelations_spec [((0 : ℤ), ⟨fun _ => some true, none⟩)]
        [⟨"a", "A"⟩, ⟨"b", "B"⟩] 1 0).2.2
      ⟨"A", "B", (100 : ℤ)⟩ (by decide)⟩
